import Mathlib

/-!
Verification of the version-aware asset synchronization logic of the
3D-Pipeline-Scripts repository (Blender/Maya FBX exporters, Unreal FBX
importer, Maya material-map exporter and Unreal material-map applier).

Python strings are embedded as lists of characters; the handful of Python
string operations the scripts use (split on a character, startswith,
endswith, slicing, int parsing) are defined below and the scripts'
functions are translated on top of them, following the source files
src/Blender/export_animation_to_fbx.py, src/Maya/export_animation_to_fbx.py,
src/Unreal/import_fbx_animation.py, src/Maya/export_material_map.py and
src/Unreal/import_material_mapping.py.
-/

/-- Python strings, embedded as lists of characters. -/
abbrev Str := List Char

/-- Convert a Lean string literal into the embedding. -/
def pst (s : String) : Str := s.data

/-- Python s.split(sep) for a one-character separator sep: splits on every
occurrence, keeping empty chunks, and yields one chunk even for the empty
string. -/
def splitC (sep : Char) : Str → List Str
  | [] => [[]]
  | c :: rest =>
    if c = sep then [] :: splitC sep rest
    else
      match splitC sep rest with
      | [] => [[c]]
      | p :: ps => (c :: p) :: ps

/-- Python s.startswith(pat): startsW pat s. -/
def startsW : Str → Str → Bool
  | [], _ => true
  | _ :: _, [] => false
  | p :: ps, c :: cs => p = c && startsW ps cs

/-- Python s.endswith(suf): endsW suf s. -/
def endsW (suf s : Str) : Bool := startsW suf.reverse s.reverse

/-- Python sequence[-1] with a default for the empty list. -/
def lastD {α : Type} (d : α) : List α → α
  | [] => d
  | [x] => x
  | _ :: y :: t => lastD d (y :: t)

/-- Numeric value of a string of decimal digit characters, most significant
first (the value Python int() computes on an all-digit string). -/
def digitsVal (cs : Str) : Nat := cs.foldl (fun a c => a * 10 + (c.toNat - 48)) 0

/-- The decimal digit character for a digit below ten. -/
def digitChar (d : Nat) : Char := Char.ofNat (48 + d)

/-- Structural helper for natStr: fuel-bounded base-ten rendering of a
positive number, most significant digit first. -/
def natStrAux : Nat → Nat → Str
  | 0, _ => []
  | fuel + 1, n => if n = 0 then [] else natStrAux fuel (n / 10) ++ [digitChar (n % 10)]

/-- Decimal rendering of a natural number, as Python str() produces it. -/
def natStr (n : Nat) : Str :=
  if n = 0 then ['0'] else natStrAux (n + 1) n

/-- Decimal rendering of an integer, as a Python f-string renders it. -/
def intStr (v : Int) : Str :=
  if v < 0 then '-' :: natStr v.natAbs else natStr v.natAbs

/-- Python int(s) restricted to the shapes arising from filenames: an
optional single sign followed by decimal digits parses, everything else
raises ValueError (modelled as none). Pythonic leniencies that cannot occur
inside an underscore-separated filename chunk (surrounding whitespace,
underscore digit grouping, unicode digits) are not modelled. -/
def pyInt? (cs : Str) : Option Int :=
  if cs = [] then none
  else if cs.headD ' ' = '-' then
    (if cs.tail ≠ [] ∧ cs.tail.all Char.isDigit then some (-(digitsVal cs.tail : Int)) else none)
  else if cs.headD ' ' = '+' then
    (if cs.tail ≠ [] ∧ cs.tail.all Char.isDigit then some ((digitsVal cs.tail : Int)) else none)
  else if cs.all Char.isDigit then some ((digitsVal cs : Int)) else none

/-- Python max(l, default=d): the greatest element of l, or d when l is
empty (the default never competes with actual elements). -/
def pyMaxD (l : List Int) (d : Int) : Int :=
  match l with
  | [] => d
  | x :: xs => xs.foldl max x

theorem digitChar_toNat {d : Nat} (h : d < 10) : (digitChar d).toNat = 48 + d := by
  interval_cases d <;> decide

theorem digitChar_isDigit {d : Nat} (h : d < 10) : (digitChar d).isDigit = true := by
  interval_cases d <;> decide

theorem digitsVal_append_one (cs : Str) (c : Char) :
    digitsVal (cs ++ [c]) = digitsVal cs * 10 + (c.toNat - 48) := by
  simp [digitsVal, List.foldl_append]

theorem digitsVal_rev_map (L : List Nat) (hL : ∀ d ∈ L, d < 10) :
    digitsVal ((L.map digitChar).reverse) = Nat.ofDigits 10 L := by
  induction L with
  | nil => simp [digitsVal, Nat.ofDigits_nil]
  | cons d L ih =>
    have hd : d < 10 := hL d (by simp)
    have hrest : ∀ x ∈ L, x < 10 := fun x hx => hL x (by simp [hx])
    have : ((d :: L).map digitChar).reverse = (L.map digitChar).reverse ++ [digitChar d] := by
      simp
    rw [this, digitsVal_append_one, ih hrest, digitChar_toNat hd, Nat.ofDigits_cons]
    omega

theorem natStrAux_eq_digits : ∀ (fuel n : Nat), n < fuel →
    natStrAux fuel n = ((Nat.digits 10 n).map digitChar).reverse := by
  intro fuel
  induction fuel with
  | zero => intro n h; omega
  | succ f ih =>
    intro n h
    rw [natStrAux]
    by_cases h0 : n = 0
    · subst h0; simp
    · rw [if_neg h0]
      have hdiv : n / 10 < f := by
        have h1 : n / 10 < n := Nat.div_lt_self (Nat.pos_of_ne_zero h0) (by norm_num)
        omega
      rw [ih (n / 10) hdiv, Nat.digits_def' (by norm_num : (1:Nat) < 10) (Nat.pos_of_ne_zero h0)]
      simp

theorem natStr_eq (n : Nat) :
    natStr n = if n = 0 then ['0'] else ((Nat.digits 10 n).map digitChar).reverse := by
  by_cases h : n = 0
  · subst h; rfl
  · rw [natStr, if_neg h, if_neg h, natStrAux_eq_digits (n + 1) n (by omega)]

theorem digitsVal_natStr (n : Nat) : digitsVal (natStr n) = n := by
  by_cases h : n = 0
  · subst h; decide
  · rw [natStr_eq, if_neg h,
      digitsVal_rev_map _ (fun d hd => Nat.digits_lt_base (by norm_num) hd),
      Nat.ofDigits_digits]

theorem natStr_ne_nil (n : Nat) : natStr n ≠ [] := by
  by_cases h : n = 0
  · subst h; decide
  · rw [natStr_eq, if_neg h]
    intro hc
    have h1 : Nat.digits 10 n ≠ [] := Nat.digits_ne_nil_iff_ne_zero.mpr h
    have h2 : ((Nat.digits 10 n).map digitChar) = [] := by
      simpa using congrArg List.reverse hc
    exact h1 (List.map_eq_nil_iff.mp h2)

theorem natStr_all_digits (n : Nat) : (natStr n).all Char.isDigit = true := by
  by_cases h : n = 0
  · subst h; decide
  · rw [natStr_eq, if_neg h]
    rw [List.all_eq_true]
    intro c hc
    rw [List.mem_reverse, List.mem_map] at hc
    obtain ⟨d, hd, rfl⟩ := hc
    exact digitChar_isDigit (Nat.digits_lt_base (by norm_num) hd)

theorem headD_mem {α : Type} {l : List α} (h : l ≠ []) (d : α) : l.headD d ∈ l := by
  cases l with
  | nil => exact absurd rfl h
  | cons c t => exact List.mem_cons_self c t

theorem mem_natStr_isDigit {n : Nat} {c : Char} (h : c ∈ natStr n) : c.isDigit = true := by
  have := natStr_all_digits n
  rw [List.all_eq_true] at this
  exact this c h

theorem pyInt?_natStr (n : Nat) : pyInt? (natStr n) = some ((n : Nat) : Int) := by
  have hne : natStr n ≠ [] := natStr_ne_nil n
  have hhead : (natStr n).headD ' ' ∈ natStr n := headD_mem hne ' '
  have hdig : ((natStr n).headD ' ').isDigit = true := mem_natStr_isDigit hhead
  have hm : (natStr n).headD ' ' ≠ '-' := by
    intro hc; rw [hc] at hdig; exact absurd hdig (by decide)
  have hp : (natStr n).headD ' ' ≠ '+' := by
    intro hc; rw [hc] at hdig; exact absurd hdig (by decide)
  rw [pyInt?, if_neg hne, if_neg hm, if_neg hp, if_pos (natStr_all_digits n),
    digitsVal_natStr]

theorem pyInt?_intStr (v : Int) : pyInt? (intStr v) = some v := by
  by_cases hv : v < 0
  · rw [intStr, if_pos hv, pyInt?]
    rw [if_neg (by simp), if_pos (by simp)]
    have htail : ('-' :: natStr v.natAbs).tail = natStr v.natAbs := rfl
    rw [htail, if_pos ⟨natStr_ne_nil _, natStr_all_digits _⟩, digitsVal_natStr]
    have : -((v.natAbs : Nat) : Int) = v := by omega
    rw [this]
  · rw [intStr, if_neg hv, pyInt?_natStr]
    have : ((v.natAbs : Nat) : Int) = v := by omega
    rw [this]

theorem intStr_inj {a b : Int} (h : intStr a = intStr b) : a = b := by
  have ha := pyInt?_intStr a
  have hb := pyInt?_intStr b
  rw [h, hb] at ha
  exact (Option.some.inj ha).symm

theorem mem_intStr {v : Int} {c : Char} (h : c ∈ intStr v) : c = '-' ∨ c.isDigit = true := by
  by_cases hv : v < 0
  · rw [intStr, if_pos hv] at h
    rcases List.mem_cons.mp h with h1 | h1
    · exact Or.inl h1
    · exact Or.inr (mem_natStr_isDigit h1)
  · rw [intStr, if_neg hv] at h
    exact Or.inr (mem_natStr_isDigit h)

theorem underscore_not_mem_intStr (v : Int) : '_' ∉ intStr v := by
  intro h
  rcases mem_intStr h with h1 | h1
  · exact absurd h1 (by decide)
  · exact absurd h1 (by decide)

theorem dot_not_mem_intStr (v : Int) : '.' ∉ intStr v := by
  intro h
  rcases mem_intStr h with h1 | h1
  · exact absurd h1 (by decide)
  · exact absurd h1 (by decide)

theorem takeWhile_append_stop {p : Char → Bool} {xs : Str} (y : Char) (ys : Str)
    (hxs : ∀ c ∈ xs, p c = true) (hy : p y = false) :
    (xs ++ y :: ys).takeWhile p = xs := by
  induction xs with
  | nil => simp [List.takeWhile, hy]
  | cons c t ih =>
    have hc : p c = true := hxs c (List.mem_cons_self c t)
    have ht : ∀ x ∈ t, p x = true := fun x hx => hxs x (List.mem_cons_of_mem _ hx)
    simp [List.takeWhile, hc, ih ht]

theorem pyInt?_append_dot (v : Int) (xs : Str) : pyInt? (intStr v ++ '.' :: xs) = none := by
  have hdotall : ∀ (l : Str), (l ++ '.' :: xs).all Char.isDigit = false := by
    intro l
    rw [List.all_eq_false]
    exact ⟨'.', by simp, by decide⟩
  by_cases hv : v < 0
  · rw [intStr, if_pos hv]
    rw [pyInt?, if_neg (by simp), if_pos (by simp)]
    have htail : (('-' :: natStr v.natAbs) ++ '.' :: xs).tail = natStr v.natAbs ++ '.' :: xs := rfl
    rw [htail, if_neg]
    intro hc
    have := hdotall (natStr v.natAbs)
    rw [this] at hc
    exact absurd hc.2 (by decide)
  · rw [intStr, if_neg hv]
    obtain ⟨a, t, hat⟩ : ∃ a t, natStr v.natAbs = a :: t := by
      cases hx : natStr v.natAbs with
      | nil => exact absurd hx (natStr_ne_nil _)
      | cons a t => exact ⟨a, t, rfl⟩
    have hadig : a.isDigit = true := mem_natStr_isDigit (hat ▸ List.mem_cons_self a t)
    have hm : a ≠ '-' := by intro hc; rw [hc] at hadig; exact absurd hadig (by decide)
    have hp : a ≠ '+' := by intro hc; rw [hc] at hadig; exact absurd hadig (by decide)
    have hfalse : ((a :: (t ++ '.' :: xs)).all Char.isDigit) = false := by
      rw [List.all_eq_false]
      exact ⟨'.', by simp, by decide⟩
    rw [hat, List.cons_append, pyInt?, if_neg (by simp), if_neg (by simpa using hm),
      if_neg (by simpa using hp), if_neg (by simp [hfalse])]

theorem le_foldl_max (l : List Int) (a x : Int) (h : x ≤ a ∨ ∃ y ∈ l, x ≤ y) :
    x ≤ l.foldl max a := by
  induction l generalizing a with
  | nil =>
    rcases h with h1 | ⟨y, hy, _⟩
    · exact h1
    · exact absurd hy (List.not_mem_nil y)
  | cons b t ih =>
    rw [List.foldl_cons]
    apply ih
    rcases h with h1 | ⟨y, hy, hxy⟩
    · exact Or.inl (le_trans h1 (le_max_left a b))
    · rcases List.mem_cons.mp hy with hy1 | hyt
      · exact Or.inl (le_trans (hy1 ▸ hxy) (le_max_right a b))
      · exact Or.inr ⟨y, hyt, hxy⟩

theorem pyMaxD_ge_mem {l : List Int} {x : Int} (h : x ∈ l) (d : Int) : x ≤ pyMaxD l d := by
  cases l with
  | nil => exact absurd h (List.not_mem_nil x)
  | cons y ys =>
    rw [pyMaxD]
    rcases List.mem_cons.mp h with rfl | hys
    · exact le_foldl_max ys x x (Or.inl le_rfl)
    · exact le_foldl_max ys y x (Or.inr ⟨x, hys, le_rfl⟩)

theorem splitC_ne_nil (sep : Char) (s : Str) : splitC sep s ≠ [] := by
  induction s with
  | nil => simp [splitC]
  | cons c t ih =>
    rw [splitC]
    split
    · simp
    · split
      · simp
      · simp

theorem splitC_no_sep {sep : Char} {s : Str} (h : sep ∉ s) : splitC sep s = [s] := by
  induction s with
  | nil => rfl
  | cons c t ih =>
    have hc : ¬ c = sep := fun hh => h (hh ▸ List.mem_cons_self c t)
    have ht : sep ∉ t := fun hh => h (List.mem_cons_of_mem _ hh)
    rw [splitC, if_neg hc, ih ht]

theorem splitC_append_sep {sep : Char} {xs : Str} (ys : Str) (h : sep ∉ xs) :
    splitC sep (xs ++ sep :: ys) = xs :: splitC sep ys := by
  induction xs with
  | nil => rw [List.nil_append, splitC, if_pos rfl]
  | cons c t ih =>
    have hc : ¬ c = sep := fun hh => h (hh ▸ List.mem_cons_self c t)
    have ht : sep ∉ t := fun hh => h (List.mem_cons_of_mem _ hh)
    rw [List.cons_append, splitC, if_neg hc, ih ht]

theorem splitC_two_le {sep : Char} {s : Str} (h : sep ∈ s) : 2 ≤ (splitC sep s).length := by
  induction s with
  | nil => exact absurd h (List.not_mem_nil sep)
  | cons c t ih =>
    by_cases hc : c = sep
    · subst hc
      rw [splitC, if_pos rfl, List.length_cons]
      have := List.length_pos.mpr (splitC_ne_nil c t)
      omega
    · have ht : sep ∈ t := by
        rcases List.mem_cons.mp h with h1 | h1
        · exact absurd h1.symm hc
        · exact h1
      rw [splitC, if_neg hc]
      cases h2 : splitC sep t with
      | nil => exact absurd h2 (splitC_ne_nil sep t)
      | cons p ps =>
        have := ih ht
        rw [h2] at this
        simpa using this

theorem splitC_lastD {sep : Char} (zs : Str) {ys : Str} (h : sep ∉ ys) :
    lastD [] (splitC sep (zs ++ sep :: ys)) = ys := by
  induction zs with
  | nil =>
    rw [List.nil_append, splitC, if_pos rfl, splitC_no_sep h]
    rfl
  | cons c zs ih =>
    by_cases hc : c = sep
    · subst hc
      rw [List.cons_append, splitC, if_pos rfl]
      cases h2 : splitC c (zs ++ c :: ys) with
      | nil => exact absurd h2 (splitC_ne_nil _ _)
      | cons p ps =>
        have : lastD ([] : Str) ([] :: p :: ps) = lastD [] (p :: ps) := rfl
        rw [this, ← h2, ih]
    · rw [List.cons_append, splitC, if_neg hc]
      cases h2 : splitC sep (zs ++ sep :: ys) with
      | nil => exact absurd h2 (splitC_ne_nil _ _)
      | cons p ps =>
        have hmem : sep ∈ zs ++ sep :: ys := by simp
        have hlen := splitC_two_le hmem
        rw [h2] at hlen
        cases ps with
        | nil => simp at hlen
        | cons q tt =>
          have e1 : lastD ([] : Str) ((c :: p) :: q :: tt) = lastD [] (q :: tt) := rfl
          have e2 : lastD ([] : Str) (p :: q :: tt) = lastD [] (q :: tt) := rfl
          rw [e1, ← e2, ← h2, ih]

theorem startsW_append_self (xs ys : Str) : startsW xs (xs ++ ys) = true := by
  induction xs with
  | nil => rfl
  | cons c t ih => simp [startsW, ih]

theorem endsW_append_self (xs suf : Str) : endsW suf (xs ++ suf) = true := by
  rw [endsW, List.reverse_append]
  exact startsW_append_self _ _

/-- The constant ".fbx" used by all three scripts. -/
def fbxExt : Str := pst ".fbx"

/-! Maya exporter, src/Maya/export_animation_to_fbx.py.

get_next_version(export_path, base_name) lists the directory, keeps files
that start with base_name and end with ".fbx", splits each on underscores,
and when the last chunk starts with "v" tries
int(parts[-1][1:].split(".")[0]); it returns
max(version_numbers, default=0) + 1. on_export_clicked then writes
{base_name}_v{version}.fbx unconditionally (no collision loop). -/

/-- Version number the Maya script extracts from one filename already known
to pass the filter: the last underscore chunk, its head must be the letter
v, then the digits before the first dot are fed to int(). -/
def mParseTok (f : Str) : Option Int :=
  let parts := splitC '_' f
  if 1 < parts.length then
    (let p := lastD [] parts
     if p.headD ' ' = 'v' then pyInt? (p.tail.takeWhile (fun c => c != '.')) else none)
  else none

/-- The Maya list-comprehension filter: f.startswith(base_name) and
f.endswith(".fbx"). -/
def mFileFilter (base f : Str) : Bool := startsW base f && endsW fbxExt f

/-- The version_numbers list the Maya get_next_version builds. -/
def mVersionsOf (files : List Str) (base : Str) : List Int :=
  (files.filter (fun f => mFileFilter base f)).filterMap mParseTok

/-- Maya get_next_version on the listing of an existing directory. -/
def mGetNextVersion (files : List Str) (base : Str) : Int :=
  pyMaxD (mVersionsOf files base) 0 + 1

/-- The filename f-string of both exporters, {base}_v{version}.fbx. -/
def mMkFile (base : Str) (v : Int) : Str := base ++ '_' :: 'v' :: (intStr v ++ fbxExt)

/-- Directory contents after n Maya exports with the same base key: each
export computes get_next_version and writes the corresponding file. -/
def mRun (files : List Str) (base : Str) : Nat → List Str
  | 0 => files
  | n + 1 =>
    mRun files base n ++ [mMkFile base (mGetNextVersion (mRun files base n) base)]

/-- The version number the (n+1)-st Maya export stamps into its filename. -/
def mVerAt (files : List Str) (base : Str) (n : Nat) : Int :=
  mGetNextVersion (mRun files base n) base

/-! Blender exporter, src/Blender/export_animation_to_fbx.py.

get_next_version filters to names starting with {character}_{scene}_v,
splits each on underscores and, when there are more than two chunks and
chunk number two starts with "v", tries int(parts[2][1:]) (note: no
extension stripping). execute() then runs a while loop incrementing the
version as long as a file with the candidate name exists. -/

/-- Version number Blender extracts from one filename: chunk at index two
of the underscore split, head letter v, the remainder fed to int(). -/
def bParseTok (f : Str) : Option Int :=
  let parts := splitC '_' f
  match parts[2]? with
  | some p => if p.headD ' ' = 'v' then pyInt? p.tail else none
  | none => none

/-- The Blender filter string f"{character}_{scene}_v". -/
def bKeyStart (ch sc : Str) : Str := ch ++ '_' :: (sc ++ pst "_v")

/-- The version_numbers list the Blender get_next_version builds. -/
def bVersionsOf (files : List Str) (ch sc : Str) : List Int :=
  (files.filter (fun f => startsW (bKeyStart ch sc) f)).filterMap bParseTok

/-- Blender get_next_version on the listing of an existing directory. -/
def bGetNextVersion (files : List Str) (ch sc : Str) : Int :=
  pyMaxD (bVersionsOf files ch sc) 0 + 1

/-- The Blender export filename f"{character}_{scene}_v{version}.fbx". -/
def bMkFile (ch sc : Str) (v : Int) : Str :=
  ch ++ '_' :: (sc ++ '_' :: 'v' :: (intStr v ++ fbxExt))

/-- The collision while loop of ExportToFBXOperator.execute, with explicit
fuel: while the candidate filename exists, increment the version. -/
def bLoop (files : List Str) (ch sc : Str) : Nat → Int → Int
  | 0, v => v
  | fuel + 1, v => if bMkFile ch sc v ∈ files then bLoop files ch sc fuel (v + 1) else v

/-- The version the while loop settles on; fuel one past the number of
existing files always suffices (proved below), so this is the loop's exit
value. -/
def bSettle (files : List Str) (ch sc : Str) (v : Int) : Int :=
  bLoop files ch sc (files.length + 1) v

/-- The version number one Blender export stamps into the file it writes:
get_next_version followed by the collision loop. -/
def bWritten (files : List Str) (ch sc : Str) : Int :=
  bSettle files ch sc (bGetNextVersion files ch sc)

/-- Directory contents after n Blender exports with the same key. -/
def bRun (files : List Str) (ch sc : Str) : Nat → List Str
  | 0 => files
  | n + 1 =>
    bRun files ch sc n ++ [bMkFile ch sc (bWritten (bRun files ch sc n) ch sc)]

/-- The version number the (n+1)-st Blender export stamps into its file. -/
def bVerAt (files : List Str) (ch sc : Str) (n : Nat) : Int :=
  bWritten (bRun files ch sc n) ch sc

/-- Blender version extraction from one filename for a given key: the
filename must pass the startswith filter, then bParseTok applies. -/
def bParseFile (f ch sc : Str) : Option Int :=
  if startsW (bKeyStart ch sc) f then bParseTok f else none

/-- Maya version extraction from one filename for a given base key. -/
def mParseFile (f base : Str) : Option Int :=
  if mFileFilter base f then mParseTok f else none

/-- Maya get_next_version as called on a directory path: os.listdir raises
FileNotFoundError on a missing directory (modelled as none). -/
def mGetNextVersionD (dir : Option (List Str)) (base : Str) : Option Int :=
  dir.map (fun fs => mGetNextVersion fs base)

/-- Blender get_next_version as called on a directory path: os.listdir
raises FileNotFoundError on a missing directory (modelled as none). -/
def bGetNextVersionD (dir : Option (List Str)) (ch sc : Str) : Option Int :=
  dir.map (fun fs => bGetNextVersion fs ch sc)

theorem underscore_not_mem_fbxExt : '_' ∉ fbxExt := by decide

theorem vchunk_no_underscore (v : Int) : '_' ∉ ('v' :: (intStr v ++ fbxExt)) := by
  intro h
  rcases List.mem_cons.mp h with h1 | h1
  · exact absurd h1 (by decide)
  · rcases List.mem_append.mp h1 with h2 | h2
    · exact underscore_not_mem_intStr v h2
    · exact underscore_not_mem_fbxExt h2

theorem mParseTok_mMkFile (base : Str) (v : Int) : mParseTok (mMkFile base v) = some v := by
  have hys : '_' ∉ ('v' :: (intStr v ++ fbxExt)) := vchunk_no_underscore v
  have hlen : 1 < (splitC '_' (mMkFile base v)).length := by
    have h2 : (2:Nat) ≤ (splitC '_' (mMkFile base v)).length :=
      splitC_two_le (by simp [mMkFile])
    omega
  have hlast : lastD [] (splitC '_' (mMkFile base v)) = 'v' :: (intStr v ++ fbxExt) :=
    splitC_lastD base hys
  have htw : (intStr v ++ fbxExt).takeWhile (fun c => c != '.') = intStr v := by
    rw [show fbxExt = '.' :: pst "fbx" from rfl]
    apply takeWhile_append_stop
    · intro c hc
      simp only [bne_iff_ne, ne_eq, decide_eq_true_eq]
      intro he
      exact dot_not_mem_intStr v (he ▸ hc)
    · decide
  simp only [mParseTok]
  rw [if_pos hlen, hlast]
  rw [if_pos (show ('v' :: (intStr v ++ fbxExt)).headD ' ' = 'v' from rfl)]
  have htail : ('v' :: (intStr v ++ fbxExt)).tail = intStr v ++ fbxExt := rfl
  rw [htail, htw, pyInt?_intStr]

theorem mFileFilter_own (base : Str) (v : Int) : mFileFilter base (mMkFile base v) = true := by
  rw [mFileFilter]
  have h1 : startsW base (mMkFile base v) = true := by
    rw [show mMkFile base v = base ++ ('_' :: 'v' :: (intStr v ++ fbxExt)) from rfl]
    exact startsW_append_self _ _
  have h2 : endsW fbxExt (mMkFile base v) = true := by
    rw [show mMkFile base v = (base ++ '_' :: 'v' :: intStr v) ++ fbxExt by simp [mMkFile]]
    exact endsW_append_self _ _
  rw [h1, h2]
  rfl

theorem mVersionsOf_append_own (fs : List Str) (base : Str) (v : Int) :
    mVersionsOf (fs ++ [mMkFile base v]) base = mVersionsOf fs base ++ [v] := by
  simp only [mVersionsOf]
  rw [List.filter_append, List.filterMap_append]
  have h1 : List.filter (fun f => mFileFilter base f) [mMkFile base v] = [mMkFile base v] := by
    simp [mFileFilter_own]
  rw [h1]
  simp [mParseTok_mMkFile]

theorem mGetNextVersion_step (fs : List Str) (base : Str) :
    mGetNextVersion fs base <
      mGetNextVersion (fs ++ [mMkFile base (mGetNextVersion fs base)]) base := by
  have hmem : mGetNextVersion fs base ∈
      mVersionsOf (fs ++ [mMkFile base (mGetNextVersion fs base)]) base := by
    rw [mVersionsOf_append_own]
    simp
  have hle := pyMaxD_ge_mem hmem 0
  conv_rhs => rw [mGetNextVersion]
  omega

theorem mVerAt_strictMono (files : List Str) (base : Str) : StrictMono (mVerAt files base) :=
  strictMono_nat_of_lt_succ (fun n => mGetNextVersion_step (mRun files base n) base)

theorem bMkFile_eq (ch sc : Str) (v : Int) :
    bMkFile ch sc v = bKeyStart ch sc ++ (intStr v ++ fbxExt) := by
  have h : pst "_v" = ['_', 'v'] := rfl
  simp [bMkFile, bKeyStart, h]

theorem bOwn_filter (ch sc : Str) (v : Int) :
    startsW (bKeyStart ch sc) (bMkFile ch sc v) = true := by
  rw [bMkFile_eq]
  exact startsW_append_self _ _

theorem bVersionsOf_append_own (fs : List Str) (ch sc : Str) (W : Int)
    (H : bParseTok (bMkFile ch sc W) = none) :
    bVersionsOf (fs ++ [bMkFile ch sc W]) ch sc = bVersionsOf fs ch sc := by
  simp only [bVersionsOf]
  rw [List.filter_append, List.filterMap_append]
  have h1 : List.filter (fun f => startsW (bKeyStart ch sc) f) [bMkFile ch sc W]
      = [bMkFile ch sc W] := by
    simp [bOwn_filter]
  rw [h1]
  simp [H]

theorem bMkFile_inj {ch sc : Str} {a b : Int} (h : bMkFile ch sc a = bMkFile ch sc b) :
    a = b := by
  rw [bMkFile_eq, bMkFile_eq] at h
  exact intStr_inj (List.append_cancel_right (List.append_cancel_left h))

theorem bLoop_ge (files : List Str) (ch sc : Str) :
    ∀ (fuel : Nat) (v : Int), v ≤ bLoop files ch sc fuel v := by
  intro fuel
  induction fuel with
  | zero => intro v; exact le_rfl
  | succ n ih =>
    intro v
    rw [bLoop]
    split
    · exact le_trans (by omega) (ih (v + 1))
    · exact le_rfl

theorem bLoop_occupied (files : List Str) (ch sc : Str) :
    ∀ (fuel : Nat) (v u : Int), v ≤ u → u < bLoop files ch sc fuel v →
      bMkFile ch sc u ∈ files := by
  intro fuel
  induction fuel with
  | zero =>
    intro v u h1 h2
    rw [bLoop] at h2
    omega
  | succ n ih =>
    intro v u h1 h2
    rw [bLoop] at h2
    by_cases hc : bMkFile ch sc v ∈ files
    · rw [if_pos hc] at h2
      rcases eq_or_lt_of_le h1 with h3 | h3
      · rw [← h3]; exact hc
      · exact ih (v + 1) u (by omega) h2
    · rw [if_neg hc] at h2
      omega

theorem bLoop_free (files : List Str) (ch sc : Str) :
    ∀ (fuel : Nat) (v : Int),
      (∃ i : Nat, i < fuel ∧ bMkFile ch sc (v + i) ∉ files) →
      bMkFile ch sc (bLoop files ch sc fuel v) ∉ files := by
  intro fuel
  induction fuel with
  | zero =>
    rintro v ⟨i, hi, _⟩
    omega
  | succ n ih =>
    rintro v ⟨i, hi, hfree⟩
    rw [bLoop]
    by_cases hc : bMkFile ch sc v ∈ files
    · rw [if_pos hc]
      apply ih (v + 1)
      have hi0 : i ≠ 0 := by
        intro h0
        rw [h0] at hfree
        simp at hfree
        exact hfree hc
      refine ⟨i - 1, by omega, ?_⟩
      have hcast : (v + 1) + ((i - 1 : Nat) : Int) = v + (i : Int) := by omega
      rw [hcast]
      exact hfree
    · rw [if_neg hc]
      exact hc

theorem bExists_free (files : List Str) (ch sc : Str) (v : Int) :
    ∃ i : Nat, i < files.length + 1 ∧ bMkFile ch sc (v + i) ∉ files := by
  by_contra hcon
  push_neg at hcon
  have hinj : Function.Injective (fun i : Nat => bMkFile ch sc (v + i)) := by
    intro a b hab
    have := bMkFile_inj hab
    omega
  have hsub : ((List.range (files.length + 1)).map (fun i : Nat => bMkFile ch sc (v + i)))
      ⊆ files := by
    intro x hx
    rw [List.mem_map] at hx
    obtain ⟨i, hi, rfl⟩ := hx
    exact hcon i (List.mem_range.mp hi)
  have hnd : ((List.range (files.length + 1)).map (fun i : Nat => bMkFile ch sc (v + i))).Nodup :=
    (List.nodup_range _).map hinj
  have hlen := (List.subperm_of_subset hnd hsub).length_le
  simp only [List.length_map, List.length_range] at hlen
  omega

theorem bSettle_free (files : List Str) (ch sc : Str) (v : Int) :
    bMkFile ch sc (bSettle files ch sc v) ∉ files :=
  bLoop_free files ch sc (files.length + 1) v (bExists_free files ch sc v)

theorem bSettle_ge (files : List Str) (ch sc : Str) (v : Int) : v ≤ bSettle files ch sc v :=
  bLoop_ge files ch sc (files.length + 1) v

theorem bSettle_occupied (files : List Str) (ch sc : Str) {v u : Int} (h1 : v ≤ u)
    (h2 : u < bSettle files ch sc v) : bMkFile ch sc u ∈ files :=
  bLoop_occupied files ch sc (files.length + 1) v u h1 h2

theorem bSettle_append_gt (files : List Str) (ch sc : Str) (s : Int) :
    bSettle files ch sc s <
      bSettle (files ++ [bMkFile ch sc (bSettle files ch sc s)]) ch sc s := by
  by_contra hcon
  push_neg at hcon
  have hfree := bSettle_free (files ++ [bMkFile ch sc (bSettle files ch sc s)]) ch sc s
  have hge := bSettle_ge (files ++ [bMkFile ch sc (bSettle files ch sc s)]) ch sc s
  rcases eq_or_lt_of_le hcon with heq | hlt
  · rw [heq] at hfree
    exact hfree (List.mem_append_right _ (List.mem_singleton_self _))
  · have hocc : bMkFile ch sc
        (bSettle (files ++ [bMkFile ch sc (bSettle files ch sc s)]) ch sc s) ∈ files :=
      bSettle_occupied files ch sc hge hlt
    exact hfree (List.mem_append_left _ hocc)

theorem bWritten_step (files : List Str) (ch sc : Str)
    (H : ∀ W : Int, bParseTok (bMkFile ch sc W) = none) :
    bWritten files ch sc < bWritten (files ++ [bMkFile ch sc (bWritten files ch sc)]) ch sc := by
  have hnext : bGetNextVersion (files ++ [bMkFile ch sc (bWritten files ch sc)]) ch sc
      = bGetNextVersion files ch sc := by
    simp only [bGetNextVersion]
    rw [bVersionsOf_append_own files ch sc _ (H _)]
  show bSettle files ch sc (bGetNextVersion files ch sc) <
      bSettle (files ++ [bMkFile ch sc (bWritten files ch sc)]) ch sc
        (bGetNextVersion (files ++ [bMkFile ch sc (bWritten files ch sc)]) ch sc)
  rw [hnext]
  exact bSettle_append_gt files ch sc (bGetNextVersion files ch sc)

theorem bVerAt_strictMono (files : List Str) (ch sc : Str)
    (H : ∀ W : Int, bParseTok (bMkFile ch sc W) = none) :
    StrictMono (bVerAt files ch sc) :=
  strictMono_nat_of_lt_succ (fun n => bWritten_step (bRun files ch sc n) ch sc H)

theorem bParseTok_own_none (ch sc : Str) (h1 : '_' ∉ ch) (h2 : '_' ∉ sc) :
    ∀ W : Int, bParseTok (bMkFile ch sc W) = none := by
  intro W
  have hys : '_' ∉ ('v' :: (intStr W ++ fbxExt)) := vchunk_no_underscore W
  have hsplit : splitC '_' (bMkFile ch sc W) = ch :: sc :: [('v' :: (intStr W ++ fbxExt))] := by
    rw [show bMkFile ch sc W = ch ++ '_' :: (sc ++ '_' :: ('v' :: (intStr W ++ fbxExt))) from rfl]
    rw [splitC_append_sep _ h1, splitC_append_sep _ h2, splitC_no_sep hys]
  simp only [bParseTok, hsplit]
  have hfbx : fbxExt = '.' :: pst "fbx" := rfl
  simp [hfbx, pyInt?_append_dot]

/-! Unreal importer, src/Unreal/import_fbx_animation.py. -/

/-- Python regex word character, for the ASCII alphabet the pipeline uses. -/
def wordChar (c : Char) : Bool := c.isAlphanum || c = '_'

/-- extract_version: the value captured by re.search of v(\d+)(?=\.\w+$)
on the filename, or -1 when there is no match. The pattern matches exactly
when the maximal digit run ending immediately before the final dot is
nonempty and preceded by the letter v, and the extension after that dot is
nonempty and all word characters; the captured group is that digit run. -/
def extract_version (f : Str) : Int :=
  let r := f.reverse
  let ext := r.takeWhile (fun c => c != '.')
  match r.dropWhile (fun c => c != '.') with
  | [] => -1
  | _ :: beforeDot =>
    if ext = [] then -1
    else if ext.all wordChar = false then -1
    else
      (let digs := beforeDot.takeWhile Char.isDigit
       if digs = [] then -1
       else if (beforeDot.dropWhile Char.isDigit).headD ' ' = 'v' then
         ((digitsVal digs.reverse : Nat) : Int)
       else -1)

/-- The scanning loop of find_latest_version: best file so far, highest
version so far, remaining files. -/
def flvAux : List Str → Option Str → Int → Option Str
  | [], best, _ => best
  | f :: rest, best, hi =>
    if hi < extract_version f then flvAux rest (some f) (extract_version f)
    else flvAux rest best hi

/-- find_latest_version: latest_file starts as None and highest_version as
-1; every file whose extract_version strictly exceeds the highest seen so
far becomes the new latest. -/
def find_latest_version (files : List Str) : Option Str := flvAux files none (-1)

/-- re.sub of _v\d+$ with the empty string: remove one trailing
underscore-v-digits token if present, otherwise return the input. -/
def strip_version_suffix (s : Str) : Str :=
  let r := s.reverse
  let digs := r.takeWhile Char.isDigit
  let rest := r.dropWhile Char.isDigit
  if digs ≠ [] ∧ startsW (pst "v_") rest = true then (rest.drop 2).reverse else s

/-- Python s[:-4], used to drop the ".fbx" of a filename. -/
def pySliceDropLast4 (s : Str) : Str := s.take (s.length - 4)

/-- The fields of the unreal.AssetImportTask plus the unreal.FbxImportUI
options that import_fbx_to_unreal sets. -/
structure ImportTask where
  filename : Str
  destination_path : Str
  destination_name : Str
  replace_existing : Bool
  import_as_skeletal : Bool
  import_materials : Bool
  import_textures : Bool
  import_mesh : Bool
deriving DecidableEq

/-- The task import_fbx_to_unreal builds: destination name anim_ plus the
version-stripped basename, replace_existing True, and an FbxImportUI with
import_as_skeletal False and import_materials, import_textures and
import_mesh all True. -/
def unreal_import_fbx (unreal_asset_path animation_file fbx_file_path : Str) : ImportTask :=
  { filename := fbx_file_path
    destination_path := unreal_asset_path
    destination_name := pst "anim_" ++ strip_version_suffix (pySliceDropLast4 animation_file)
    replace_existing := true
    import_as_skeletal := false
    import_materials := true
    import_textures := true
    import_mesh := true }

/-- A scene directory on disk: folder name and contained file names. -/
structure SceneDir where
  name : Str
  files : List Str
deriving DecidableEq

/-- A character directory on disk: folder name and scene subfolders. -/
structure CharDir where
  name : Str
  scenes : List SceneDir
deriving DecidableEq

/-- The per-scene body of create_unreal_folders: filter to .fbx files,
pick the latest version; when one exists, check
does_asset_exist(f"{scene_unreal_path}/{latest_file[:-4]}") against the
asset database and emit the import task only when that path is absent.
Folder creation does not influence task emission and is not modelled. -/
def planScene (scene_unreal_path scene_disk_path : Str) (files : List Str) (db : List Str) :
    List ImportTask :=
  match find_latest_version (files.filter (fun f => endsW fbxExt f)) with
  | some latest =>
    if (scene_unreal_path ++ '/' :: pySliceDropLast4 latest) ∈ db then []
    else [unreal_import_fbx scene_unreal_path latest (scene_disk_path ++ '/' :: latest)]
  | none => []

/-- create_unreal_folders as a pure planner: walk the character and scene
folders of the source tree and collect the import tasks the script would
run, given the asset paths already present in the engine database. -/
def create_unreal_folders (source_path : Str) (tree : List CharDir) (unreal_base : Str)
    (db : List Str) : List ImportTask :=
  tree.flatMap (fun c =>
    c.scenes.flatMap (fun s =>
      planScene (unreal_base ++ '/' :: (c.name ++ '/' :: s.name))
        (source_path ++ '/' :: (c.name ++ '/' :: s.name)) s.files db))

/-- Executing import tasks: each task creates (or replaces) the asset at
{destination_path}/{destination_name}. -/
def runTasks (db : List Str) (ts : List ImportTask) : List Str :=
  db ++ ts.map (fun t => t.destination_path ++ '/' :: t.destination_name)

theorem flvAux_cases : ∀ (fs : List Str) (best : Option Str) (hi : Int),
    flvAux fs best hi = best ∨
      ∃ f, f ∈ fs ∧ flvAux fs best hi = some f ∧ hi < extract_version f := by
  intro fs
  induction fs with
  | nil => intro best hi; exact Or.inl rfl
  | cons g t ih =>
    intro best hi
    rw [flvAux]
    by_cases hg : hi < extract_version g
    · rw [if_pos hg]
      rcases ih (some g) (extract_version g) with h1 | ⟨f, hf, he, hv⟩
      · exact Or.inr ⟨g, List.mem_cons_self g t, h1, hg⟩
      · exact Or.inr ⟨f, List.mem_cons_of_mem _ hf, he, lt_trans hg hv⟩
    · rw [if_neg hg]
      rcases ih best hi with h1 | ⟨f, hf, he, hv⟩
      · exact Or.inl h1
      · exact Or.inr ⟨f, List.mem_cons_of_mem _ hf, he, hv⟩

theorem flvAux_max : ∀ (fs : List Str) (best : Option Str) (hi : Int) (g : Str), g ∈ fs →
    extract_version g ≤ hi ∨
      ∃ f, flvAux fs best hi = some f ∧ extract_version g ≤ extract_version f := by
  intro fs
  induction fs with
  | nil => intro best hi g hg; exact absurd hg (List.not_mem_nil g)
  | cons a t ih =>
    intro best hi g hg
    rw [flvAux]
    by_cases ha : hi < extract_version a
    · rw [if_pos ha]
      rcases List.mem_cons.mp hg with h1 | h1
      · subst h1
        rcases flvAux_cases t (some g) (extract_version g) with h2 | ⟨f, _, he, hv⟩
        · exact Or.inr ⟨g, h2, le_rfl⟩
        · exact Or.inr ⟨f, he, le_of_lt hv⟩
      · rcases ih (some a) (extract_version a) g h1 with h2 | h2
        · rcases flvAux_cases t (some a) (extract_version a) with h3 | ⟨f, _, he, hv⟩
          · exact Or.inr ⟨a, h3, h2⟩
          · exact Or.inr ⟨f, he, le_trans h2 (le_of_lt hv)⟩
        · exact Or.inr h2
    · rw [if_neg ha]
      rcases List.mem_cons.mp hg with h1 | h1
      · subst h1
        exact Or.inl (not_lt.mp ha)
      · exact ih best hi g h1

/-! Maya material-map exporter, src/Maya/export_material_map.py. -/

/-- A scene object as get_object_to_material_map sees it: its name,
whether obj.getShape() returns a shape, and the materials get_materials
finds on that shape, as stable identifiers. -/
structure MayaObject where
  name : Str
  shape : Bool
  mats : List Nat
deriving DecidableEq

/-- The loop of get_object_to_material_map, also recording every
(material, channel) pair on which get_file is invoked: objects without a
shape or without materials are skipped; the first material of each object
is looked up in used_shader and, when new, one file-map entry keyed by the
object name is built by calling get_file once per channel and the material
is appended to used_shader. texOf is the scene collaborator answering
get_file(material, channel). -/
def gomAux (texOf : Nat → Str → Option Str) (channels : List Str) :
    List MayaObject → List Nat →
      List (Str × List (Str × Option Str)) × List (Nat × Str)
  | [], _ => ([], [])
  | o :: rest, used =>
    if o.shape = false then gomAux texOf channels rest used
    else
      match o.mats with
      | [] => gomAux texOf channels rest used
      | m :: _ =>
        if m ∈ used then gomAux texOf channels rest used
        else
          ((o.name, channels.map (fun c => (c, texOf m c))) ::
              (gomAux texOf channels rest (used ++ [m])).1,
            channels.map (fun c => (m, c)) ++ (gomAux texOf channels rest (used ++ [m])).2)

/-- get_object_to_material_map with an initially empty used_shader list:
the object map, paired with the log of get_file lookups performed. -/
def get_object_to_material_map (texOf : Nat → Str → Option Str) (objs : List MayaObject)
    (channels : List Str) : List (Str × List (Str × Option Str)) × List (Nat × Str) :=
  gomAux texOf channels objs []

/-! Unreal material importer, src/Unreal/import_material_mapping.py. -/

/-- Python dict.get on an insertion-ordered association list. -/
def pyDictGet {α : Type} (d : List (Str × α)) (k : Str) : Option α :=
  (d.find? (fun kv => kv.1 = k)).map Prod.snd

/-- remap_dict.get(old_channel) followed by the truthiness test
if new_channel: a missing key and a falsy (empty) value both fail it. -/
def truthyGet (d : List (Str × Str)) (k : Str) : Option Str :=
  match pyDictGet d k with
  | some v => if v = [] then none else some v
  | none => none

/-- Assignment into a Python dict, preserving insertion order: an existing
key keeps its position and receives the new value, a new key is appended. -/
def dictInsert {α : Type} (d : List (Str × α)) (k : Str) (v : α) : List (Str × α) :=
  if (d.find? (fun kv => kv.1 = k)).isSome then
    d.map (fun kv => if kv.1 = k then (k, v) else kv)
  else d ++ [(k, v)]

/-- The inner loop of remap_channels over one object's channel dict:
channels whose name passes the remap table are written into
updated_channels under the new name, the rest are dropped. -/
def remapChannelsOne (channels : List (Str × Option Str)) (remapD : List (Str × Str)) :
    List (Str × Option Str) :=
  channels.foldl (fun acc cp =>
    match truthyGet remapD cp.1 with
    | some c2 => dictInsert acc c2 cp.2
    | none => acc) []

/-- remap_channels: rebuild the outer dict, every object keyed as before
with its channel dict remapped. -/
def remap_channels (data : List (Str × List (Str × Option Str))) (remapD : List (Str × Str)) :
    List (Str × List (Str × Option Str)) :=
  data.foldl (fun acc och => dictInsert acc och.1 (remapChannelsOne och.2 remapD)) []

/-- add_all_textures_to_material: the texture paths on which
import_texture is attempted, in channel order; falsy origins (None or the
empty string) are skipped by the if origin test. -/
def add_all_textures (material_map : List (Str × Option Str)) : List Str :=
  material_map.filterMap (fun co =>
    match co.2 with
    | some p => if p = [] then none else some p
    | none => none)

/-- Observable engine actions of the material loop of start_script. -/
inductive AppEvent where
  | createMat (nm : Str)
  | texImport (path : Str)
deriving DecidableEq

/-- The final loop of start_script: one create_material call per object of
the remapped map, named by the operator-supplied asset name, followed by
the texture imports of add_all_textures_to_material. -/
def start_apply (mapped : List (Str × List (Str × Option Str))) (names : Str → Str) :
    List AppEvent :=
  mapped.foldr
    (fun omm acc =>
      AppEvent.createMat (names omm.1) ::
        ((add_all_textures omm.2).map AppEvent.texImport ++ acc))
    []

theorem dictInsert_fresh {α : Type} (d : List (Str × α)) (k : Str) (v : α)
    (h : ∀ kv ∈ d, kv.1 ≠ k) : dictInsert d k v = d ++ [(k, v)] := by
  have hnone : d.find? (fun kv => kv.1 = k) = none := by
    rw [List.find?_eq_none]
    intro kv hkv
    simp only [decide_eq_true_eq]
    exact h kv hkv
  simp [dictInsert, hnone]

theorem remapOne_aux (remapD : List (Str × Str)) :
    ∀ (chs : List (Str × Option Str)) (acc : List (Str × Option Str)),
      (acc.map Prod.fst ++ chs.filterMap (fun cp => truthyGet remapD cp.1)).Nodup →
      chs.foldl (fun acc cp =>
        match truthyGet remapD cp.1 with
        | some c2 => dictInsert acc c2 cp.2
        | none => acc) acc
      = acc ++ chs.filterMap (fun cp =>
          (truthyGet remapD cp.1).map (fun c2 => (c2, cp.2))) := by
  intro chs
  induction chs with
  | nil =>
    intro acc _
    simp
  | cons cp t ih =>
    intro acc h
    rw [List.foldl_cons, List.filterMap_cons]
    rw [List.filterMap_cons] at h
    cases hg : truthyGet remapD cp.1 with
    | none =>
      simp only [hg] at h ⊢
      exact ih acc h
    | some c2 =>
      simp only [hg] at h ⊢
      have hc2 : ∀ kv ∈ acc, kv.1 ≠ c2 := by
        intro kv hkv he
        have hmem : c2 ∈ acc.map Prod.fst := List.mem_map.mpr ⟨kv, hkv, he⟩
        rcases List.nodup_append.mp h with ⟨_, _, hdisj⟩
        exact hdisj hmem (List.mem_cons_self _ _)
      rw [dictInsert_fresh acc c2 cp.2 hc2]
      have h2 : ((acc ++ [(c2, cp.2)]).map Prod.fst ++
          t.filterMap (fun cp => truthyGet remapD cp.1)).Nodup := by
        simpa [List.append_assoc] using h
      rw [ih (acc ++ [(c2, cp.2)]) h2]
      simp

theorem remapChannelsOne_eq_filterMap (chs : List (Str × Option Str))
    (remapD : List (Str × Str))
    (h : (chs.filterMap (fun cp => truthyGet remapD cp.1)).Nodup) :
    remapChannelsOne chs remapD
      = chs.filterMap (fun cp => (truthyGet remapD cp.1).map (fun c2 => (c2, cp.2))) := by
  have h2 := remapOne_aux remapD chs [] (by simpa using h)
  simpa [remapChannelsOne] using h2

theorem foldl_dictInsert_eq_append {β : Type} (g : (Str × β) → β) :
    ∀ (data : List (Str × β)) (acc : List (Str × β)),
      (∀ k ∈ data.map Prod.fst, k ∉ acc.map Prod.fst) →
      (data.map Prod.fst).Nodup →
      data.foldl (fun a och => dictInsert a och.1 (g och)) acc
        = acc ++ data.map (fun och => (och.1, g och)) := by
  intro data
  induction data with
  | nil =>
    intro acc _ _
    simp
  | cons och t ih =>
    intro acc h1 h2
    rw [List.foldl_cons]
    have hfresh : ∀ kv ∈ acc, kv.1 ≠ och.1 := by
      intro kv hkv he
      exact h1 och.1 (by rw [List.map_cons]; exact List.mem_cons_self _ _)
        (List.mem_map.mpr ⟨kv, hkv, he⟩)
    rw [dictInsert_fresh acc och.1 (g och) hfresh]
    have h1t : ∀ k ∈ t.map Prod.fst, k ∉ (acc ++ [(och.1, g och)]).map Prod.fst := by
      intro k hk
      rw [List.map_append, List.mem_append]
      rintro (hin | hin)
      · exact h1 k (by simp [hk]) hin
      · rw [List.map_cons] at h2
        rcases List.nodup_cons.mp h2 with ⟨hnotin, _⟩
        simp only [List.map_cons, List.map_nil, List.mem_singleton] at hin
        rw [hin] at hk
        exact hnotin hk
    have h2t : (t.map Prod.fst).Nodup := by
      rw [List.map_cons] at h2
      exact (List.nodup_cons.mp h2).2
    rw [ih (acc ++ [(och.1, g och)]) h1t h2t]
    simp

theorem remap_channels_eq_map (data : List (Str × List (Str × Option Str)))
    (remapD : List (Str × Str)) (h : (data.map Prod.fst).Nodup) :
    remap_channels data remapD
      = data.map (fun och => (och.1, remapChannelsOne och.2 remapD)) := by
  have h2 := foldl_dictInsert_eq_append
    (fun och => remapChannelsOne och.2 remapD) data [] (by simp) h
  simpa [remap_channels] using h2

theorem remapChannelsOne_all_none (chs : List (Str × Option Str)) (remapD : List (Str × Str))
    (h : ∀ cp ∈ chs, truthyGet remapD cp.1 = none) : remapChannelsOne chs remapD = [] := by
  have hnil : chs.filterMap (fun cp => truthyGet remapD cp.1) = [] :=
    List.filterMap_eq_nil_iff.mpr h
  rw [remapChannelsOne_eq_filterMap chs remapD (by rw [hnil]; exact List.nodup_nil)]
  apply List.filterMap_eq_nil_iff.mpr
  intro cp hcp
  rw [h cp hcp]
  rfl

theorem start_apply_createMat (mapped : List (Str × List (Str × Option Str)))
    (names : Str → Str) (o : Str) (h : o ∈ mapped.map Prod.fst) :
    AppEvent.createMat (names o) ∈ start_apply mapped names := by
  induction mapped with
  | nil => simp at h
  | cons omm t ih =>
    rw [List.map_cons] at h
    rcases List.mem_cons.mp h with h1 | h1
    · subst h1
      exact List.mem_cons_self _ _
    · show AppEvent.createMat (names o) ∈ AppEvent.createMat (names omm.1) ::
        ((add_all_textures omm.2).map AppEvent.texImport ++ start_apply t names)
      exact List.mem_cons_of_mem _ (List.mem_append_right _ (ih h1))

/-! Claim theorems. -/

/-- The one-character one-scene source tree of the idempotence scenario:
Maurice/scene002 containing Maurice_scene002_v3.fbx. -/
def c1Tree : List CharDir :=
  [⟨pst "Maurice", [⟨pst "scene002", [pst "Maurice_scene002_v3.fbx"]⟩]⟩]

/-- C1: the claim says the planner derives the asset identity
destination_folder/anim_{stripped base name}, emits nothing when an asset
already exists there, and therefore a second run against an unchanged tree
and a destination holding the first run's assets emits zero tasks. The
code instead checks does_asset_exist at the versioned un-stripped path
{scene folder}/{latest_file[:-4]} while importing under anim_{stripped}:
on this tree the first run emits one task whose execution creates exactly
the asset .../anim_Maurice_scene002, yet the second run still emits one
task instead of zero. -/
theorem C1_second_run_reimports :
    (create_unreal_folders (pst "N:/GOLEMS_FATE/animations") c1Tree
        (pst "/Game/ASSETS/Animations") []).length = 1 ∧
    runTasks [] (create_unreal_folders (pst "N:/GOLEMS_FATE/animations") c1Tree
        (pst "/Game/ASSETS/Animations") [])
      = [pst "/Game/ASSETS/Animations/Maurice/scene002/anim_Maurice_scene002"] ∧
    (create_unreal_folders (pst "N:/GOLEMS_FATE/animations") c1Tree
        (pst "/Game/ASSETS/Animations")
        (runTasks [] (create_unreal_folders (pst "N:/GOLEMS_FATE/animations") c1Tree
          (pst "/Game/ASSETS/Animations") []))).length = 1 :=
  ⟨by decide, by decide, by decide⟩

/-- C2: along any sequence of exports with one (character, scene) key into
one directory, the version numbers stamped into the written files strictly
increase, for the Maya exporter (get_next_version alone) and for the
Blender exporter (get_next_version plus the collision loop); in
particular no two files written for the key carry the same version. The
Blender half assumes its parser extracts no version from the files the
exporter itself writes, which holds for every key selectable in the UI
(bParseTok_own_none covers every underscore-free character and scene, and
the same argument covers Mother_Golem). -/
theorem C2_next_version_strictly_increases
    (filesM : List Str) (base : Str) (filesB : List Str) (ch sc : Str)
    (H : ∀ W : Int, bParseTok (bMkFile ch sc W) = none) :
    (∀ i j : Nat, i < j → mVerAt filesM base i < mVerAt filesM base j) ∧
    (∀ i j : Nat, i < j → bVerAt filesB ch sc i < bVerAt filesB ch sc j) :=
  ⟨fun _ _ hij => mVerAt_strictMono filesM base hij,
   fun _ _ hij => bVerAt_strictMono filesB ch sc H hij⟩

/-- C2 witness at the key Maurice/Test starting from an empty directory:
the first two exports carry strictly increasing versions in both
exporters. -/
theorem C2_witness :
    bParseTok (bMkFile (pst "Maurice") (pst "Test") 1) = none ∧
    mVerAt [] (pst "Maurice_Test") 0 < mVerAt [] (pst "Maurice_Test") 1 ∧
    bVerAt [] (pst "Maurice") (pst "Test") 0 < bVerAt [] (pst "Maurice") (pst "Test") 1 :=
  ⟨bParseTok_own_none (pst "Maurice") (pst "Test") (by decide) (by decide) 1,
   (C2_next_version_strictly_increases [] (pst "Maurice_Test") [] (pst "Maurice") (pst "Test")
      (bParseTok_own_none (pst "Maurice") (pst "Test") (by decide) (by decide))).1 0 1
      (by decide),
   (C2_next_version_strictly_increases [] (pst "Maurice_Test") [] (pst "Maurice") (pst "Test")
      (bParseTok_own_none (pst "Maurice") (pst "Test") (by decide) (by decide))).2 0 1
      (by decide)⟩

/-- C3: the claim says both exporters' parsing routines recover v from the
formatted filename {key}_v{v}.{ext}. Maya's last-token routine does, for
every base key and integer version with the fbx extension; Blender's
split-on-underscore routine does not even on its own output: for
character Maurice, scene Test, version 3 it reaches int on the string
3.fbx, which raises ValueError, so the file is skipped and no version is
extracted. -/
theorem C3_roundtrip_maya_ok_blender_broken :
    (∀ (base : Str) (v : Int), mParseFile (mMkFile base v) base = some v) ∧
    bParseFile (bMkFile (pst "Maurice") (pst "Test") 3) (pst "Maurice") (pst "Test") = none :=
  ⟨fun base v => by rw [mParseFile, if_pos (mFileFilter_own base v), mParseTok_mMkFile],
   by decide⟩

/-- C4 counterexample: on a non-existent directory neither exporter's
get_next_version returns 1; os.listdir raises FileNotFoundError, modelled
as none. -/
theorem C4_counterexample :
    ¬ (bGetNextVersionD none (pst "Maurice") (pst "Test") = some 1 ∧
       mGetNextVersionD none (pst "Maurice_Test") = some 1) := by
  decide

/-- C4 amended: when the directory exists, get_next_version returns 1
whenever no listed file parses to a version for the key (so in particular
on an empty directory), in both exporters; a non-existent directory is not
treated as empty but propagates the os.listdir error. -/
theorem C4_next_version_default_one (files : List Str) (ch sc base : Str)
    (hb : bVersionsOf files ch sc = []) (hm : mVersionsOf files base = []) :
    bGetNextVersionD (some files) ch sc = some 1 ∧
    mGetNextVersionD (some files) base = some 1 ∧
    bGetNextVersionD none ch sc = none ∧
    mGetNextVersionD none base = none := by
  refine ⟨?_, ?_, rfl, rfl⟩
  · show some (bGetNextVersion files ch sc) = some 1
    rw [bGetNextVersion, hb]
    rfl
  · show some (mGetNextVersion files base) = some 1
    rw [mGetNextVersion, hm]
    rfl

/-- C4 witness: a directory holding only readme.txt yields no version for
the key Maurice/Test and both exporters return 1. -/
theorem C4_witness :
    bVersionsOf [pst "readme.txt"] (pst "Maurice") (pst "Test") = [] ∧
    mVersionsOf [pst "readme.txt"] (pst "Maurice_Test") = [] ∧
    bGetNextVersionD (some [pst "readme.txt"]) (pst "Maurice") (pst "Test") = some 1 ∧
    mGetNextVersionD (some [pst "readme.txt"]) (pst "Maurice_Test") = some 1 :=
  ⟨by decide, by decide,
   (C4_next_version_default_one [pst "readme.txt"] (pst "Maurice") (pst "Test")
      (pst "Maurice_Test") (by decide) (by decide)).1,
   (C4_next_version_default_one [pst "readme.txt"] (pst "Maurice") (pst "Test")
      (pst "Maurice_Test") (by decide) (by decide)).2.1⟩

/-- C5: whenever find_latest_version selects a file, that file is among
the inputs, carries a version (extract_version at least 0, so versionless
files are never selected), and its version is maximal among all inputs;
and when no input carries a version the result is None. -/
theorem C5_find_latest_version_max :
    (∀ (files : List Str) (f : Str), find_latest_version files = some f →
       f ∈ files ∧ 0 ≤ extract_version f ∧
         ∀ g ∈ files, extract_version g ≤ extract_version f) ∧
    (∀ files : List Str, (∀ g ∈ files, extract_version g = -1) →
       find_latest_version files = none) := by
  constructor
  · intro files f hf
    rcases flvAux_cases files none (-1) with h1 | ⟨f2, hmem, he, hv⟩
    · rw [find_latest_version, h1] at hf
      exact absurd hf (by simp)
    · rw [find_latest_version, he] at hf
      have hff : f2 = f := Option.some.inj hf
      subst hff
      refine ⟨hmem, by omega, ?_⟩
      intro g hg
      rcases flvAux_max files none (-1) g hg with h2 | ⟨f3, he3, hle⟩
      · omega
      · have h4 : f3 = f2 := Option.some.inj (he3.symm.trans he)
        rw [h4] at hle
        exact hle
  · intro files hall
    rcases flvAux_cases files none (-1) with h1 | ⟨f2, hmem, _, hv⟩
    · rw [find_latest_version]
      exact h1
    · rw [hall f2 hmem] at hv
      exact absurd hv (by norm_num)

/-- The mixed directory of the C5 scenario: versions 1, 3, 5 and 7 of one
key next to unrelated files. -/
def c5Files : List Str := [pst "a_v1.fbx", pst "notes.txt", pst "a_v3.fbx", pst "a_v5.fbx",
  pst "IMG_20.png", pst "a_v7.fbx"]

/-- C5 witness: in the mixed directory the v7 file is selected, it is a
member with version at least 0, and it dominates the v1 file. -/
theorem C5_witness :
    find_latest_version c5Files = some (pst "a_v7.fbx") ∧
    pst "a_v7.fbx" ∈ c5Files ∧
    0 ≤ extract_version (pst "a_v7.fbx") ∧
    extract_version (pst "a_v1.fbx") ≤ extract_version (pst "a_v7.fbx") :=
  ⟨by decide,
   (C5_find_latest_version_max.1 c5Files (pst "a_v7.fbx") (by decide)).1,
   (C5_find_latest_version_max.1 c5Files (pst "a_v7.fbx") (by decide)).2.1,
   (C5_find_latest_version_max.1 c5Files (pst "a_v7.fbx") (by decide)).2.2
     (pst "a_v1.fbx") (by decide)⟩

/-- C6 counterexample: the task built for a concrete animation file has
import_mesh True, so the import is not configured to create no mesh as the
claim states. -/
theorem C6_counterexample :
    (unreal_import_fbx (pst "/Game/ASSETS/Animations/Maurice/scene002")
      (pst "Maurice_scene002_v3.fbx")
      (pst "N:/GOLEMS_FATE/animations/Maurice/scene002/Maurice_scene002_v3.fbx")).import_mesh
      = true := rfl

/-- C6 amended: every import task replaces any existing asset at its
identity, and disables only the skeletal interpretation of the FBX:
import_as_skeletal is False while import_mesh, import_materials and
import_textures are all True, so the import is not animation-only. -/
theorem C6_task_configuration (p f q : Str) :
    (unreal_import_fbx p f q).replace_existing = true ∧
    (unreal_import_fbx p f q).import_as_skeletal = false ∧
    (unreal_import_fbx p f q).import_mesh = true ∧
    (unreal_import_fbx p f q).import_materials = true ∧
    (unreal_import_fbx p f q).import_textures = true :=
  ⟨rfl, rfl, rfl, rfl, rfl⟩

/-- C7 counterexample: objects A and B share material 7; the claim says
both names appear as map keys, but the built map does not contain B. -/
theorem C7_counterexample :
    ¬ (pst "B" ∈ (get_object_to_material_map (fun _ _ => none)
        [⟨pst "A", true, [7]⟩, ⟨pst "B", true, [7]⟩] [pst "baseColor"]).1.map Prod.fst) := by
  decide

/-- C7 amended: when two objects share their first material, the map
contains exactly one entry, keyed by the first object's name, and the
per-channel get_file lookups on that material are performed exactly once
(for the first object); the second object is skipped entirely. -/
theorem C7_shared_material (texOf : Nat → Str → Option Str) (channels : List Str)
    (n1 n2 : Str) (m : Nat) (ms1 ms2 : List Nat) :
    (get_object_to_material_map texOf [⟨n1, true, m :: ms1⟩, ⟨n2, true, m :: ms2⟩] channels).1
      = [(n1, channels.map (fun c => (c, texOf m c)))] ∧
    (get_object_to_material_map texOf [⟨n1, true, m :: ms1⟩, ⟨n2, true, m :: ms2⟩] channels).2
      = channels.map (fun c => (m, c)) := by
  constructor <;> simp [get_object_to_material_map, gomAux]

/-- The Door material map of the C8 scenario. -/
def c8Door : List (Str × Option Str) :=
  [(pst "baseColor", some (pst "tex/door_c.png")), (pst "normalCamera", none)]

/-- The channel remap table of the C8 scenario. -/
def c8Remap : List (Str × Str) :=
  [(pst "baseColor", pst "BASE_COLOR"), (pst "normalCamera", pst "NORMAL")]

/-- C8: remapping the Door map and running the texture loop attempts
exactly one import, for the baseColor texture; the null normalCamera entry
survives remapping unchanged and causes no failure; and in general a
channel whose name is missing from the remap table is silently dropped:
appending such a channel leaves the remapped dict unchanged. -/
theorem C8_door_one_import :
    add_all_textures (remapChannelsOne c8Door c8Remap) = [pst "tex/door_c.png"] ∧
    remapChannelsOne c8Door c8Remap
      = [(pst "BASE_COLOR", some (pst "tex/door_c.png")), (pst "NORMAL", none)] ∧
    (∀ (chs : List (Str × Option Str)) (remapD : List (Str × Str)) (c : Str) (p : Option Str),
       pyDictGet remapD c = none →
       remapChannelsOne (chs ++ [(c, p)]) remapD = remapChannelsOne chs remapD) := by
  refine ⟨by decide, by decide, ?_⟩
  intro chs remapD c p hget
  have htruthy : truthyGet remapD c = none := by rw [truthyGet, hget]
  rw [remapChannelsOne, remapChannelsOne, List.foldl_append]
  simp [htruthy]

/-- C8 witness: opacity is missing from the Door remap table, and
appending an opacity channel to the Door map leaves the remapping result
unchanged. -/
theorem C8_witness :
    pyDictGet c8Remap (pst "opacity") = none ∧
    remapChannelsOne (c8Door ++ [(pst "opacity", some (pst "tex/op.png"))]) c8Remap
      = remapChannelsOne c8Door c8Remap :=
  ⟨by decide,
   C8_door_one_import.2.2 c8Door c8Remap (pst "opacity") (some (pst "tex/op.png"))
     (by decide)⟩

/-- C10: remap_channels keeps exactly the object keys of its input (in
order) and carries every surviving channel's texture value through
unchanged; an object all of whose channel names are dropped still appears
with an empty channel dict; and the applier loop afterwards calls
create_material once for every key of the remapped map. Key distinctness
assumptions state that the inputs are genuine dicts: object keys are
distinct, and within the quantified object the surviving remapped channel
names are distinct. -/
theorem C10_remap_frame
    (data : List (Str × List (Str × Option Str))) (remapD : List (Str × Str))
    (names : Str → Str) (hkeys : (data.map Prod.fst).Nodup) :
    ((remap_channels data remapD).map Prod.fst = data.map Prod.fst) ∧
    (∀ (o : Str) (chs : List (Str × Option Str)) (c c2 : Str) (p : Option Str),
       (o, chs) ∈ data →
       (chs.filterMap (fun cp => truthyGet remapD cp.1)).Nodup →
       (c, p) ∈ chs → truthyGet remapD c = some c2 →
       (o, remapChannelsOne chs remapD) ∈ remap_channels data remapD ∧
         (c2, p) ∈ remapChannelsOne chs remapD) ∧
    (∀ (o : Str) (chs : List (Str × Option Str)),
       (o, chs) ∈ data → (∀ cp ∈ chs, truthyGet remapD cp.1 = none) →
       (o, []) ∈ remap_channels data remapD) ∧
    (∀ o ∈ (remap_channels data remapD).map Prod.fst,
       AppEvent.createMat (names o) ∈ start_apply (remap_channels data remapD) names) := by
  refine ⟨?_, ?_, ?_, ?_⟩
  · rw [remap_channels_eq_map data remapD hkeys, List.map_map]
    simp
  · intro o chs c c2 p hin hnd hcp htruthy
    constructor
    · rw [remap_channels_eq_map data remapD hkeys]
      exact List.mem_map.mpr ⟨(o, chs), hin, rfl⟩
    · rw [remapChannelsOne_eq_filterMap chs remapD hnd]
      exact List.mem_filterMap.mpr ⟨(c, p), hcp, by simp [htruthy]⟩
  · intro o chs hin hnone
    rw [remap_channels_eq_map data remapD hkeys]
    refine List.mem_map.mpr ⟨(o, chs), hin, ?_⟩
    rw [remapChannelsOne_all_none chs remapD hnone]
  · intro o ho
    exact start_apply_createMat (remap_channels data remapD) names o ho

/-- The one-object map of the C10 witness: Door carries only the channel
glow, which the remap table does not know. -/
def c10Data : List (Str × List (Str × Option Str)) :=
  [(pst "Door", [(pst "glow", some (pst "tex/door_g.png"))])]

/-- The remap table of the C10 witness, missing the channel glow. -/
def c10Remap : List (Str × Str) :=
  [(pst "baseColor", pst "BASE_COLOR"), (pst "normalCamera", pst "NORMAL")]

/-- C10 witness: the Door object keeps its key with an empty channel dict
and the applier still creates a material for it. -/
theorem C10_witness :
    (c10Data.map Prod.fst).Nodup ∧
    (remap_channels c10Data c10Remap).map Prod.fst = c10Data.map Prod.fst ∧
    (pst "Door", ([] : List (Str × Option Str))) ∈ remap_channels c10Data c10Remap ∧
    AppEvent.createMat (pst "mat_Door") ∈
      start_apply (remap_channels c10Data c10Remap) (fun _ => pst "mat_Door") :=
  ⟨by decide,
   (C10_remap_frame c10Data c10Remap (fun _ => pst "mat_Door") (by decide)).1,
   (C10_remap_frame c10Data c10Remap (fun _ => pst "mat_Door") (by decide)).2.2.1
     (pst "Door") [(pst "glow", some (pst "tex/door_g.png"))] (by decide) (by decide),
   (C10_remap_frame c10Data c10Remap (fun _ => pst "mat_Door") (by decide)).2.2.2
     (pst "Door") (by decide)⟩

/-- C9: the Blender collision loop, run with enough fuel for its
pre-existing files, settles on a version whose filename names no
pre-existing file, never below its starting version, and every version it
stepped past was occupied, so the loop terminates after at most one step
per existing file and exits on the first free name. -/
theorem C9_collision_loop_terminates (files : List Str) (ch sc : Str) (v : Int) :
    bMkFile ch sc (bSettle files ch sc v) ∉ files ∧
    v ≤ bSettle files ch sc v ∧
    ∀ u : Int, v ≤ u → u < bSettle files ch sc v → bMkFile ch sc u ∈ files :=
  ⟨bSettle_free files ch sc v, bSettle_ge files ch sc v,
   fun _ h1 h2 => bSettle_occupied files ch sc h1 h2⟩

/-- C9 witness: with the v1 file already on disk and starting version 1,
the loop steps past the occupied version 1 and settles on a free name. -/
theorem C9_witness :
    bMkFile (pst "Maurice") (pst "Test")
        (bSettle [bMkFile (pst "Maurice") (pst "Test") 1] (pst "Maurice") (pst "Test") 1)
      ∉ [bMkFile (pst "Maurice") (pst "Test") 1] ∧
    bMkFile (pst "Maurice") (pst "Test") 1 ∈ [bMkFile (pst "Maurice") (pst "Test") 1] :=
  ⟨(C9_collision_loop_terminates [bMkFile (pst "Maurice") (pst "Test") 1]
      (pst "Maurice") (pst "Test") 1).1,
   (C9_collision_loop_terminates [bMkFile (pst "Maurice") (pst "Test") 1]
      (pst "Maurice") (pst "Test") 1).2.2 1 le_rfl (by decide)⟩
